import Mathlib

/-!
Verification development for the yg-cash-flow repository.

The repository's frontend (`src/frontend`), database schema
(`src/supabase_setup.sql`) and form pages are embedded shallowly below.
Monetary amounts are embedded as rationals (`ℚ`), calendar dates as
`(year, month, day)` triples of naturals ordered lexicographically, and
month bucket keys (the JS strings `` `${year}-${pad2 month}` ``) as
`(year, month)` pairs, which is faithful because `getMonth() + 1` always
lies in `1..12` so the string key is injective in the pair.
-/

namespace YGCF

/-- `Transaction.type` from `src/frontend/src/types/index.ts`. -/
inductive TxType where
  | income
  | expense
deriving DecidableEq, Repr

/-- The fields of `Transaction` (types/index.ts) that
`CashFlowChart.processData` reads: `transaction_date` (split into year,
month `1..12`, day) plus `type` and `amount`. -/
structure Transaction where
  year : ℕ
  month : ℕ
  day : ℕ
  type : TxType
  amount : ℚ
deriving DecidableEq, Repr

/-- Date comparison used by the sort in `CashFlowChart.processData`
(line 30: compare `new Date(a.transaction_date).getTime()`), i.e. the
lexicographic order on `(year, month, day)`. -/
def dateLeP (a b : Transaction) : Prop :=
  a.year < b.year ∨ (a.year = b.year ∧
    (a.month < b.month ∨ (a.month = b.month ∧ a.day ≤ b.day)))

instance (a b : Transaction) : Decidable (dateLeP a b) := by
  unfold dateLeP; infer_instance

/-- Boolean form of `dateLeP`, used by the executable sort. -/
def dateLe (a b : Transaction) : Bool := decide (dateLeP a b)

/-- The JS object key `` `${date.getFullYear()}-${pad2 (getMonth()+1)}` ``
(CashFlowChart.tsx line 39), embedded as the pair `(year, month)`. -/
def monthKey (t : Transaction) : ℕ × ℕ := (t.year, t.month)

/-- Chronological (lexicographic) order on month keys. -/
def keyLe (k₁ k₂ : ℕ × ℕ) : Prop :=
  k₁.1 < k₂.1 ∨ (k₁.1 = k₂.1 ∧ k₁.2 ≤ k₂.2)

/-- Strict chronological order on month keys. -/
def keyLt (k₁ k₂ : ℕ × ℕ) : Prop :=
  k₁.1 < k₂.1 ∨ (k₁.1 = k₂.1 ∧ k₁.2 < k₂.2)

instance (k₁ k₂ : ℕ × ℕ) : Decidable (keyLe k₁ k₂) := by
  unfold keyLe; infer_instance

instance (k₁ k₂ : ℕ × ℕ) : Decidable (keyLt k₁ k₂) := by
  unfold keyLt; infer_instance

theorem keyLe_refl (k : ℕ × ℕ) : keyLe k k := Or.inr ⟨rfl, le_refl _⟩

theorem keyLe_trans {k₁ k₂ k₃ : ℕ × ℕ} (h₁ : keyLe k₁ k₂) (h₂ : keyLe k₂ k₃) :
    keyLe k₁ k₃ := by
  unfold keyLe at *; omega

theorem keyLe_antisymm {k₁ k₂ : ℕ × ℕ} (h₁ : keyLe k₁ k₂) (h₂ : keyLe k₂ k₁) :
    k₁ = k₂ := by
  unfold keyLe at *
  have : k₁.1 = k₂.1 ∧ k₁.2 = k₂.2 := by omega
  exact Prod.ext this.1 this.2

theorem keyLt_of_keyLe_ne {k₁ k₂ : ℕ × ℕ} (h : keyLe k₁ k₂) (hne : k₁ ≠ k₂) :
    keyLt k₁ k₂ := by
  unfold keyLe at h; unfold keyLt
  rcases Nat.lt_trichotomy k₁.1 k₂.1 with h1 | h1 | h1
  · exact Or.inl h1
  · refine Or.inr ⟨h1, ?_⟩
    rcases Nat.lt_or_ge k₁.2 k₂.2 with h2 | h2
    · exact h2
    · exact absurd (Prod.ext h1 (by omega)) hne
  · omega

theorem keyLt_irrefl (k : ℕ × ℕ) : ¬ keyLt k k := by
  unfold keyLt; omega

theorem keyLt_trans {k₁ k₂ k₃ : ℕ × ℕ} (h₁ : keyLt k₁ k₂) (h₂ : keyLt k₂ k₃) :
    keyLt k₁ k₃ := by
  unfold keyLt at *; omega

theorem dateLeP_total (a b : Transaction) : dateLeP a b ∨ dateLeP b a := by
  unfold dateLeP; omega

theorem dateLeP_trans {a b c : Transaction} (h₁ : dateLeP a b) (h₂ : dateLeP b c) :
    dateLeP a c := by
  unfold dateLeP at *; omega

theorem keyLe_of_dateLeP {a b : Transaction} (h : dateLeP a b) :
    keyLe (monthKey a) (monthKey b) := by
  unfold dateLeP at h; unfold keyLe monthKey; dsimp; omega

/-- One month's bucket in the `monthlyData` object of
`CashFlowChart.processData` (line 34): accumulated income, expenses and
the balance written back after each transaction of that month. -/
structure MonthAgg where
  income : ℚ
  expenses : ℚ
  balance : ℚ
deriving DecidableEq, Repr

/-- The JS insertion-ordered object `monthlyData` is embedded as an
association list (key order = insertion order), paired with the mutable
`runningBalance` variable. -/
structure ChartState where
  data : List ((ℕ × ℕ) × MonthAgg)
  runningBalance : ℚ
deriving DecidableEq, Repr

/-- `monthKey in monthlyData` (the `if (!monthlyData[monthKey])` test). -/
def hasKey (d : List ((ℕ × ℕ) × MonthAgg)) (k : ℕ × ℕ) : Bool :=
  d.any (fun e => e.1 = k)

/-- In-place update of the entry stored at key `k` (JS object property
assignment; keys of `monthlyData` are distinct by construction). -/
def updateKey (d : List ((ℕ × ℕ) × MonthAgg)) (k : ℕ × ℕ)
    (f : MonthAgg → MonthAgg) : List ((ℕ × ℕ) × MonthAgg) :=
  d.map (fun e => if e.1 = k then (e.1, f e.2) else e)

/-- Signed cash movement of one transaction: `runningBalance += amount`
for income, `runningBalance -= amount` for expense. -/
def signed (t : Transaction) : ℚ :=
  match t.type with
  | .income => t.amount
  | .expense => -t.amount

/-- The body of the `sortedTransactions.forEach` loop in
`CashFlowChart.processData` (lines 37–54). -/
def step (st : ChartState) (t : Transaction) : ChartState :=
  let k := monthKey t
  let d₀ := if hasKey st.data k then st.data
            else st.data ++ [(k, ⟨0, 0, st.runningBalance⟩)]
  let rb := st.runningBalance + signed t
  let d₁ :=
    match t.type with
    | .income => updateKey d₀ k (fun a => { a with income := a.income + t.amount })
    | .expense => updateKey d₀ k (fun a => { a with expenses := a.expenses + t.amount })
  ⟨updateKey d₁ k (fun a => { a with balance := rb }), rb⟩

/-- The whole `forEach` loop as a fold. -/
def run (l : List Transaction) (st : ChartState) : ChartState :=
  l.foldl step st

/-- Stable insertion of a transaction into a date-sorted list: `t` goes
in front of the first element not strictly before it. -/
def insertByDate (t : Transaction) : List Transaction → List Transaction
  | [] => [t]
  | u :: us => if dateLe t u then t :: u :: us else u :: insertByDate t us

/-- `[...transactions].sort((a, b) => dateA - dateB)`
(CashFlowChart.tsx lines 30–32): a stable sort by transaction date,
embedded as stable insertion sort (ECMAScript `Array.prototype.sort` is
stable, and a stable sort by a total preorder is unique, so any stable
sort is a faithful embedding). -/
def sortedTransactions : List Transaction → List Transaction
  | [] => []
  | t :: ts => insertByDate t (sortedTransactions ts)

/-- The final `monthlyData` object of `CashFlowChart.processData`, in
key-insertion order; `runningBalance` starts at `0` (line 35). -/
def monthlyData (l : List Transaction) : List ((ℕ × ℕ) × MonthAgg) :=
  (run (sortedTransactions l) ⟨[], 0⟩).data

/-- `Object.keys(monthlyData).slice(-6)` (line 56). -/
def labels (l : List Transaction) : List (ℕ × ℕ) :=
  let ks := (monthlyData l).map Prod.fst
  ks.drop (ks.length - 6)

/-- JS `x || 0` on a number that is present (`ℚ` has no NaN): falsy `0`
is replaced by `0`, anything else kept. -/
def jsOrZero (x : ℚ) : ℚ := if x = 0 then 0 else x

/-- JS `opt?.field || 0`: an absent lookup yields `0`. -/
def jsProj (o : Option ℚ) : ℚ :=
  match o with
  | none => 0
  | some x => jsOrZero x

/-- Association-list lookup standing for JS object property access. -/
def lookupKey : List ((ℕ × ℕ) × MonthAgg) → (ℕ × ℕ) → Option MonthAgg
  | [], _ => none
  | e :: es, k => if e.1 = k then some e.2 else lookupKey es k

/-- `labels.map(key => monthlyData[key]?.income || 0)` (line 57). -/
def incomeData (l : List Transaction) : List ℚ :=
  (labels l).map (fun k => jsProj ((lookupKey (monthlyData l) k).map (·.income)))

/-- `labels.map(key => monthlyData[key]?.expenses || 0)` (line 58). -/
def expenseData (l : List Transaction) : List ℚ :=
  (labels l).map (fun k => jsProj ((lookupKey (monthlyData l) k).map (·.expenses)))

/-- `labels.map(key => monthlyData[key]?.balance || 0)` (line 59). -/
def balanceData (l : List Transaction) : List ℚ :=
  (labels l).map (fun k => jsProj ((lookupKey (monthlyData l) k).map (·.balance)))

/-! ### Canonical characterisation of the fold -/

/-- Income contribution of a transaction (amount for income, else 0). -/
def incOf (t : Transaction) : ℚ :=
  match t.type with
  | .income => t.amount
  | .expense => 0

/-- Expense contribution of a transaction (amount for expense, else 0). -/
def expOf (t : Transaction) : ℚ :=
  match t.type with
  | .income => 0
  | .expense => t.amount

def incSum (l : List Transaction) : ℚ := (l.map incOf).sum

def expSum (l : List Transaction) : ℚ := (l.map expOf).sum

def signedSum (l : List Transaction) : ℚ := (l.map signed).sum

theorem incSum_cons (t : Transaction) (l : List Transaction) :
    incSum (t :: l) = incOf t + incSum l := by
  simp [incSum]

theorem expSum_cons (t : Transaction) (l : List Transaction) :
    expSum (t :: l) = expOf t + expSum l := by
  simp [expSum]

theorem signedSum_cons (t : Transaction) (l : List Transaction) :
    signedSum (t :: l) = signed t + signedSum l := by
  simp [signedSum]

theorem signedSum_append (l₁ l₂ : List Transaction) :
    signedSum (l₁ ++ l₂) = signedSum l₁ + signedSum l₂ := by
  simp [signedSum]

theorem signed_eq_incOf_sub_expOf (t : Transaction) :
    signed t = incOf t - expOf t := by
  cases h : t.type <;> simp [signed, incOf, expOf, h]

theorem signedSum_eq_incSum_sub_expSum (l : List Transaction) :
    signedSum l = incSum l - expSum l := by
  induction l with
  | nil => simp [signedSum, incSum, expSum]
  | cons t ts ih =>
    rw [signedSum_cons, incSum_cons, expSum_cons, ih, signed_eq_incOf_sub_expOf]
    ring

/-- Canonical value of `monthlyData` on a date-sorted input: the sorted
list decomposes into maximal runs of equal month key; each run yields one
entry whose balance is the running balance after the run. -/
def canon : List Transaction → ℚ → List ((ℕ × ℕ) × MonthAgg)
  | [], _ => []
  | t :: ts, b =>
    let k := monthKey t
    let grp := (t :: ts).takeWhile (fun u => decide (monthKey u = k))
    let rest := (t :: ts).dropWhile (fun u => decide (monthKey u = k))
    (k, ⟨incSum grp, expSum grp, b + signedSum grp⟩) :: canon rest (b + signedSum grp)
termination_by l _ => l.length
decreasing_by
  simp only [List.dropWhile_cons, decide_eq_true_eq, if_true, eq_self_iff_true]
  exact Nat.lt_succ_of_le (List.dropWhile_sublist _).length_le

/-! ### The sort produces a date-sorted permutation -/

theorem insertByDate_perm (t : Transaction) (l : List Transaction) :
    (insertByDate t l).Perm (t :: l) := by
  induction l with
  | nil => simp [insertByDate]
  | cons u us ih =>
    rw [insertByDate]
    by_cases hd : dateLe t u = true
    · rw [if_pos hd]
    · rw [if_neg hd]
      exact (ih.cons u).trans (List.Perm.swap t u us)

theorem sortedTransactions_perm (l : List Transaction) :
    (sortedTransactions l).Perm l := by
  induction l with
  | nil => exact List.Perm.refl _
  | cons t ts ih =>
    rw [sortedTransactions]
    exact (insertByDate_perm t (sortedTransactions ts)).trans (ih.cons t)

theorem mem_insertByDate {v t : Transaction} {l : List Transaction} :
    v ∈ insertByDate t l ↔ v = t ∨ v ∈ l := by
  rw [(insertByDate_perm t l).mem_iff, List.mem_cons]

theorem pairwise_insertByDate {t : Transaction} {l : List Transaction}
    (h : l.Pairwise dateLeP) : (insertByDate t l).Pairwise dateLeP := by
  induction l with
  | nil => simp [insertByDate]
  | cons u us ih =>
    rcases List.pairwise_cons.mp h with ⟨hu, hus⟩
    rw [insertByDate]
    by_cases hd : dateLe t u = true
    · rw [if_pos hd]
      have htu : dateLeP t u := of_decide_eq_true hd
      refine List.pairwise_cons.mpr ⟨?_, h⟩
      intro v hv
      rcases List.mem_cons.mp hv with hv | hv
      · exact hv ▸ htu
      · exact dateLeP_trans htu (hu v hv)
    · rw [if_neg hd]
      have hut : dateLeP u t := by
        rcases dateLeP_total t u with ht | ht
        · exact absurd (decide_eq_true ht) hd
        · exact ht
      refine List.pairwise_cons.mpr ⟨?_, ih hus⟩
      intro v hv
      rcases mem_insertByDate.mp hv with hv | hv
      · exact hv ▸ hut
      · exact hu v hv

theorem sortedTransactions_pairwise (l : List Transaction) :
    (sortedTransactions l).Pairwise dateLeP := by
  induction l with
  | nil => exact List.Pairwise.nil
  | cons t ts ih => exact pairwise_insertByDate ih

/-- A date-sorted list has chronologically nondecreasing month keys. -/
theorem pairwise_keyLe_of_pairwise_dateLeP {l : List Transaction}
    (h : l.Pairwise dateLeP) :
    l.Pairwise (fun a b => keyLe (monthKey a) (monthKey b)) :=
  h.imp (fun hab => keyLe_of_dateLeP hab)

/-! ### The fold computes the canonical form -/

theorem hasKey_eq_false {d : List ((ℕ × ℕ) × MonthAgg)} {k : ℕ × ℕ}
    (h : k ∉ d.map Prod.fst) : hasKey d k = false := by
  rw [Bool.eq_false_iff]
  intro hc
  rcases List.any_eq_true.mp hc with ⟨e, he, hek⟩
  exact h (of_decide_eq_true hek ▸ List.mem_map_of_mem Prod.fst he)

theorem hasKey_eq_true {d : List ((ℕ × ℕ) × MonthAgg)} {k : ℕ × ℕ}
    (h : k ∈ d.map Prod.fst) : hasKey d k = true := by
  rcases List.mem_map.mp h with ⟨e, he, hek⟩
  exact List.any_eq_true.mpr ⟨e, he, decide_eq_true hek⟩

theorem updateKey_append_singleton {d₀ : List ((ℕ × ℕ) × MonthAgg)} {k : ℕ × ℕ}
    (hk : k ∉ d₀.map Prod.fst) (a : MonthAgg) (f : MonthAgg → MonthAgg) :
    updateKey (d₀ ++ [(k, a)]) k f = d₀ ++ [(k, f a)] := by
  unfold updateKey
  rw [List.map_append]
  have h₁ : d₀.map (fun e => if e.1 = k then (e.1, f e.2) else e) = d₀ := by
    have := List.map_congr_left (l := d₀)
      (f := fun e => if e.1 = k then (e.1, f e.2) else e) (g := fun e => e)
      (fun e he => by
        show (if e.1 = k then (e.1, f e.2) else e) = e
        rw [if_neg]
        intro hek
        exact hk (hek ▸ List.mem_map_of_mem Prod.fst he))
    simpa using this
  rw [h₁]
  simp

/-- `step` on a state whose object lacks the transaction's month key:
a fresh bucket is appended and immediately filled. -/
theorem step_new {d : List ((ℕ × ℕ) × MonthAgg)} {b : ℚ} {t : Transaction}
    (h : monthKey t ∉ d.map Prod.fst) :
    step ⟨d, b⟩ t =
      ⟨d ++ [(monthKey t, ⟨incOf t, expOf t, b + signed t⟩)], b + signed t⟩ := by
  cases htype : t.type
  · simp [step, htype, hasKey_eq_false h, updateKey_append_singleton h,
      signed, incOf, expOf]
  · simp [step, htype, hasKey_eq_false h, updateKey_append_singleton h,
      signed, incOf, expOf]

/-- `step` on a state whose last entry already carries the transaction's
month key (and no earlier entry does): the entry is updated in place. -/
theorem step_old {d₀ : List ((ℕ × ℕ) × MonthAgg)} {k : ℕ × ℕ}
    (hk : k ∉ d₀.map Prod.fst) {i e bb b : ℚ} {t : Transaction}
    (ht : monthKey t = k) :
    step ⟨d₀ ++ [(k, ⟨i, e, bb⟩)], b⟩ t =
      ⟨d₀ ++ [(k, ⟨i + incOf t, e + expOf t, b + signed t⟩)], b + signed t⟩ := by
  have hin : k ∈ (d₀ ++ [(k, (⟨i, e, bb⟩ : MonthAgg))]).map Prod.fst := by simp
  cases htype : t.type
  · simp [step, htype, ht, hasKey_eq_true hin, updateKey_append_singleton hk,
      signed, incOf, expOf]
  · simp [step, htype, ht, hasKey_eq_true hin, updateKey_append_singleton hk,
      signed, incOf, expOf]

/-- Running the loop over a block of transactions that all carry the month
key of the (freshly created) last entry extends that entry in place. -/
theorem run_group_aux {k : ℕ × ℕ} {d₀ : List ((ℕ × ℕ) × MonthAgg)}
    (hk : k ∉ d₀.map Prod.fst) :
    ∀ (grp : List Transaction), (∀ u ∈ grp, monthKey u = k) →
    ∀ (i e b : ℚ),
    run grp ⟨d₀ ++ [(k, ⟨i, e, b⟩)], b⟩ =
      ⟨d₀ ++ [(k, ⟨i + incSum grp, e + expSum grp, b + signedSum grp⟩)],
        b + signedSum grp⟩ := by
  intro grp
  induction grp with
  | nil =>
    intro _ i e b
    simp [run, incSum, expSum, signedSum]
  | cons u gt ih =>
    intro hmem i e b
    have hu : monthKey u = k := hmem u (List.mem_cons_self u gt)
    have hrun : run (u :: gt) ⟨d₀ ++ [(k, ⟨i, e, b⟩)], b⟩ =
        run gt (step ⟨d₀ ++ [(k, ⟨i, e, b⟩)], b⟩ u) := rfl
    rw [hrun, step_old hk hu,
      ih (fun v hv => hmem v (List.mem_cons_of_mem u hv)) _ _ _,
      incSum_cons, expSum_cons, signedSum_cons]
    have h₁ : i + incOf u + incSum gt = i + (incOf u + incSum gt) := by ring
    have h₂ : e + expOf u + expSum gt = e + (expOf u + expSum gt) := by ring
    have h₃ : b + signed u + signedSum gt = b + (signed u + signedSum gt) := by ring
    rw [h₁, h₂, h₃]

/-- Month keys strictly after a maximal run of key `k` differ from `k`. -/
theorem key_ne_of_mem_dropWhile {k : ℕ × ℕ} :
    ∀ {s : List Transaction},
    s.Pairwise (fun a b => keyLe (monthKey a) (monthKey b)) →
    (∀ u ∈ s, keyLe k (monthKey u)) →
    ∀ u ∈ s.dropWhile (fun u => decide (monthKey u = k)), monthKey u ≠ k := by
  intro s
  induction s with
  | nil => intro _ _ u hu; simp [List.dropWhile] at hu
  | cons v vs ih =>
    intro hp hlo u hu
    rcases List.pairwise_cons.mp hp with ⟨hv, hvs⟩
    by_cases hvk : monthKey v = k
    · rw [List.dropWhile_cons, if_pos (decide_eq_true hvk)] at hu
      exact ih hvs (fun w hw => hlo w (List.mem_cons_of_mem v hw)) u hu
    · rw [List.dropWhile_cons,
        if_neg (by simpa using hvk)] at hu
      rcases List.mem_cons.mp hu with hu | hu
      · exact hu ▸ hvk
      · intro huk
        have h₁ : keyLe (monthKey v) k := huk ▸ hv u hu
        have h₂ : keyLe k (monthKey v) := hlo v (List.mem_cons_self v vs)
        exact hvk (keyLe_antisymm h₁ h₂)

/-- Main characterisation: on a date-sorted input whose month keys are
disjoint from the keys already in the object, the loop appends exactly
the canonical month buckets and adds the total signed flow. -/
theorem run_eq_canon_aux (n : ℕ) :
    ∀ (s : List Transaction), s.length ≤ n →
    s.Pairwise (fun a b => keyLe (monthKey a) (monthKey b)) →
    ∀ (d₀ : List ((ℕ × ℕ) × MonthAgg)) (b : ℚ),
    (∀ k ∈ d₀.map Prod.fst, ∀ t ∈ s, k ≠ monthKey t) →
    run s ⟨d₀, b⟩ = ⟨d₀ ++ canon s b, b + signedSum s⟩ := by
  induction n with
  | zero =>
    intro s hs _ d₀ b _
    rw [List.length_eq_zero.mp (Nat.le_zero.mp hs)]
    simp [run, canon, signedSum]
  | succ n ih =>
    intro s hs hp d₀ b hdisj
    match s with
    | [] => simp [run, canon, signedSum]
    | t :: ts =>
      set k := monthKey t with hk
      set grp := (t :: ts).takeWhile (fun u => decide (monthKey u = k)) with hgrp
      set rest := (t :: ts).dropWhile (fun u => decide (monthKey u = k)) with hrest
      have hsplit : grp ++ rest = t :: ts := List.takeWhile_append_dropWhile _ _
      have hgrpk : ∀ u ∈ grp, monthKey u = k := by
        intro u hu
        rw [hgrp] at hu
        exact of_decide_eq_true
          (List.mem_takeWhile_imp (p := fun v => decide (monthKey v = k)) hu)
      have hgrpc : grp = t :: ts.takeWhile (fun u => decide (monthKey u = k)) := by
        rw [hgrp, List.takeWhile_cons, if_pos (by simp [hk])]
      have hrestc : rest = ts.dropWhile (fun u => decide (monthKey u = k)) := by
        rw [hrest, List.dropWhile_cons, if_pos (by simp [hk])]
      have hlo : ∀ u ∈ t :: ts, keyLe k (monthKey u) := by
        intro u hu
        rcases List.mem_cons.mp hu with hu | hu
        · rw [hu]; exact keyLe_refl _
        · exact (List.pairwise_cons.mp hp).1 u hu
      have hrestne : ∀ u ∈ rest, monthKey u ≠ k :=
        key_ne_of_mem_dropWhile hp hlo
      have hrestsub : rest.Sublist (t :: ts) := by
        rw [hrest]; exact List.dropWhile_sublist _
      have hrestp : rest.Pairwise (fun a b => keyLe (monthKey a) (monthKey b)) :=
        hp.sublist hrestsub
      have hrestlen : rest.length ≤ n := by
        have h₁ : rest.length ≤ ts.length := by
          rw [hrestc]; exact (List.dropWhile_sublist _).length_le
        have h₂ : ts.length + 1 ≤ n + 1 := by simpa using hs
        omega
      have hknotind₀ : k ∉ d₀.map Prod.fst := by
        intro hc
        exact hdisj k hc t (List.mem_cons_self t ts) rfl
      -- run over the first month group
      have hgrprun : run grp ⟨d₀, b⟩ =
          ⟨d₀ ++ [(k, ⟨incSum grp, expSum grp, b + signedSum grp⟩)],
            b + signedSum grp⟩ := by
        rw [hgrpc]
        have hkn : monthKey t ∉ d₀.map Prod.fst := by
          rw [← hk]; exact hknotind₀
        have hstep : step ⟨d₀, b⟩ t =
            ⟨d₀ ++ [(k, ⟨incOf t, expOf t, b + signed t⟩)], b + signed t⟩ := by
          rw [hk]
          exact step_new hkn
        have hrun : run (t :: ts.takeWhile (fun u => decide (monthKey u = k))) ⟨d₀, b⟩ =
            run (ts.takeWhile (fun u => decide (monthKey u = k))) (step ⟨d₀, b⟩ t) := rfl
        rw [hrun, hstep,
          run_group_aux hknotind₀ _
            (fun v hv => hgrpk v (hgrpc ▸ List.mem_cons_of_mem t hv)) _ _ _]
        rw [incSum_cons, expSum_cons, signedSum_cons]
        simp only [← add_assoc]
      -- split the loop at the group boundary
      have hruns : run (t :: ts) ⟨d₀, b⟩ = run rest (run grp ⟨d₀, b⟩) := by
        rw [← hsplit]; exact List.foldl_append _ _ _ _
      -- recurse on the remainder
      have hrestdisj :
          ∀ k' ∈ (d₀ ++ [(k, (⟨incSum grp, expSum grp, b + signedSum grp⟩ : MonthAgg))]).map Prod.fst,
          ∀ u ∈ rest, k' ≠ monthKey u := by
        intro k' hk' u hu
        rw [List.map_append] at hk'
        rcases List.mem_append.mp hk' with hk' | hk'
        · exact hdisj k' hk' u (hrestsub.mem hu)
        · simp only [List.map_cons, List.map_nil, List.mem_singleton] at hk'
          rw [hk']
          exact fun hc => hrestne u hu hc.symm
      have hrec := ih rest hrestlen hrestp
        (d₀ ++ [(k, ⟨incSum grp, expSum grp, b + signedSum grp⟩)])
        (b + signedSum grp) hrestdisj
      have hcanon : canon (t :: ts) b =
          (k, ⟨incSum grp, expSum grp, b + signedSum grp⟩) ::
            canon rest (b + signedSum grp) := by
        rw [canon]
      have hsum : signedSum (t :: ts) = signedSum grp + signedSum rest := by
        rw [← hsplit, signedSum_append]
      rw [hruns, hgrprun, hrec, hcanon, hsum, List.append_assoc,
        List.singleton_append, add_assoc]

/-- `monthlyData` equals the canonical month-bucket list of the
date-sorted input with starting balance `0`. -/
theorem monthlyData_eq_canon (l : List Transaction) :
    monthlyData l = canon (sortedTransactions l) 0 := by
  unfold monthlyData
  rw [run_eq_canon_aux (sortedTransactions l).length _ le_rfl
    (pairwise_keyLe_of_pairwise_dateLeP (sortedTransactions_pairwise l)) [] 0
    (by intro k hk; simp at hk)]
  simp

/-! ### Structure of the canonical bucket list -/

theorem canon_cons (t : Transaction) (ts : List Transaction) (b : ℚ) :
    canon (t :: ts) b =
      (monthKey t,
        ⟨incSum ((t :: ts).takeWhile (fun u => decide (monthKey u = monthKey t))),
         expSum ((t :: ts).takeWhile (fun u => decide (monthKey u = monthKey t))),
         b + signedSum ((t :: ts).takeWhile (fun u => decide (monthKey u = monthKey t)))⟩) ::
      canon ((t :: ts).dropWhile (fun u => decide (monthKey u = monthKey t)))
        (b + signedSum ((t :: ts).takeWhile (fun u => decide (monthKey u = monthKey t)))) := by
  rw [canon]

/-- The head bucket of the canonical list has
`balance = startingBalance + income − expenses`. -/
theorem canon_head_bal (s : List Transaction) (b : ℚ) (e : (ℕ × ℕ) × MonthAgg)
    (h : (canon s b).head? = some e) :
    e.2.balance = b + e.2.income - e.2.expenses := by
  match s with
  | [] => simp [canon] at h
  | t :: ts =>
    rw [canon_cons] at h
    simp only [List.head?_cons, Option.some.injEq] at h
    rw [← h]
    simp only
    rw [signedSum_eq_incSum_sub_expSum]
    ring

/-- Balance recurrence across consecutive canonical buckets:
each bucket's balance is the previous balance plus its net flow. -/
theorem canon_chain_balance_aux (n : ℕ) :
    ∀ (s : List Transaction), s.length ≤ n → ∀ (b : ℚ),
    List.Chain' (fun e₁ e₂ : (ℕ × ℕ) × MonthAgg =>
      e₂.2.balance = e₁.2.balance + e₂.2.income - e₂.2.expenses) (canon s b) := by
  induction n with
  | zero =>
    intro s hs b
    rw [List.length_eq_zero.mp (Nat.le_zero.mp hs)]
    simp [canon]
  | succ n ih =>
    intro s hs b
    match s with
    | [] => simp [canon]
    | t :: ts =>
      rw [canon_cons]
      set grp := (t :: ts).takeWhile (fun u => decide (monthKey u = monthKey t)) with hgrp
      set rest := (t :: ts).dropWhile (fun u => decide (monthKey u = monthKey t)) with hrest
      have hrestlen : rest.length ≤ n := by
        have h₁ : rest.length ≤ ts.length := by
          rw [hrest, List.dropWhile_cons, if_pos (by simp)]
          exact (List.dropWhile_sublist _).length_le
        have h₂ : ts.length + 1 ≤ n + 1 := by simpa using hs
        omega
      refine List.chain'_cons'.mpr ⟨?_, ih rest hrestlen _⟩
      intro y hy
      have := canon_head_bal rest (b + signedSum grp) y hy
      simpa using this

theorem canon_chain_balance (s : List Transaction) (b : ℚ) :
    List.Chain' (fun e₁ e₂ : (ℕ × ℕ) × MonthAgg =>
      e₂.2.balance = e₁.2.balance + e₂.2.income - e₂.2.expenses) (canon s b) :=
  canon_chain_balance_aux s.length s le_rfl b

/-- A month key occurs in the canonical bucket list exactly when some
transaction carries it. -/
theorem canon_keys_mem_aux (n : ℕ) :
    ∀ (s : List Transaction), s.length ≤ n → ∀ (b : ℚ) (k' : ℕ × ℕ),
    k' ∈ (canon s b).map Prod.fst ↔ ∃ t ∈ s, monthKey t = k' := by
  induction n with
  | zero =>
    intro s hs b k'
    rw [List.length_eq_zero.mp (Nat.le_zero.mp hs)]
    simp [canon]
  | succ n ih =>
    intro s hs b k'
    match s with
    | [] => simp [canon]
    | t :: ts =>
      rw [canon_cons]
      set grp := (t :: ts).takeWhile (fun u => decide (monthKey u = monthKey t)) with hgrp
      set rest := (t :: ts).dropWhile (fun u => decide (monthKey u = monthKey t)) with hrest
      have hsplit : grp ++ rest = t :: ts := List.takeWhile_append_dropWhile _ _
      have hrestlen : rest.length ≤ n := by
        have h₁ : rest.length ≤ ts.length := by
          rw [hrest, List.dropWhile_cons, if_pos (by simp)]
          exact (List.dropWhile_sublist _).length_le
        have h₂ : ts.length + 1 ≤ n + 1 := by simpa using hs
        omega
      simp only [List.map_cons, List.mem_cons]
      rw [ih rest hrestlen]
      constructor
      · rintro (hk | ⟨u, hu, hk⟩)
        · exact ⟨t, Or.inl rfl, hk.symm⟩
        · have hu' : u ∈ t :: ts := hsplit ▸ List.mem_append_right grp hu
          exact ⟨u, List.mem_cons.mp hu', hk⟩
      · rintro ⟨u, hu, hk⟩
        have hu' : u ∈ grp ++ rest := by
          rw [hsplit]; exact List.mem_cons.mpr hu
        rcases List.mem_append.mp hu' with hu'' | hu''
        · left
          have : monthKey u = monthKey t := of_decide_eq_true
            (List.mem_takeWhile_imp (p := fun v => decide (monthKey v = monthKey t))
              (hgrp ▸ hu''))
          rw [← hk, this]
        · right
          exact ⟨u, hu'', hk⟩

theorem canon_keys_mem (s : List Transaction) (b : ℚ) (k' : ℕ × ℕ) :
    k' ∈ (canon s b).map Prod.fst ↔ ∃ t ∈ s, monthKey t = k' :=
  canon_keys_mem_aux s.length s le_rfl b k'

/-- On a chronologically sorted input the canonical bucket keys are
strictly increasing. -/
theorem canon_keys_chain_aux (n : ℕ) :
    ∀ (s : List Transaction), s.length ≤ n →
    s.Pairwise (fun a b => keyLe (monthKey a) (monthKey b)) → ∀ (b : ℚ),
    List.Chain' keyLt ((canon s b).map Prod.fst) := by
  induction n with
  | zero =>
    intro s hs _ b
    rw [List.length_eq_zero.mp (Nat.le_zero.mp hs)]
    simp [canon]
  | succ n ih =>
    intro s hs hp b
    match s with
    | [] => simp [canon]
    | t :: ts =>
      rw [canon_cons]
      set grp := (t :: ts).takeWhile (fun u => decide (monthKey u = monthKey t)) with hgrp
      set rest := (t :: ts).dropWhile (fun u => decide (monthKey u = monthKey t)) with hrest
      have hrestc : rest = ts.dropWhile (fun u => decide (monthKey u = monthKey t)) := by
        rw [hrest, List.dropWhile_cons, if_pos (by simp)]
      have hrestlen : rest.length ≤ n := by
        have h₁ : rest.length ≤ ts.length := by
          rw [hrestc]; exact (List.dropWhile_sublist _).length_le
        have h₂ : ts.length + 1 ≤ n + 1 := by simpa using hs
        omega
      have hrestsub : rest.Sublist (t :: ts) := by
        rw [hrest]; exact List.dropWhile_sublist _
      have hrestp : rest.Pairwise (fun a b => keyLe (monthKey a) (monthKey b)) :=
        hp.sublist hrestsub
      have hlo : ∀ u ∈ t :: ts, keyLe (monthKey t) (monthKey u) := by
        intro u hu
        rcases List.mem_cons.mp hu with hu | hu
        · rw [hu]; exact keyLe_refl _
        · exact (List.pairwise_cons.mp hp).1 u hu
      have hrestne : ∀ u ∈ rest, monthKey u ≠ monthKey t :=
        key_ne_of_mem_dropWhile hp hlo
      simp only [List.map_cons]
      refine List.chain'_cons'.mpr ⟨?_, ih rest hrestlen hrestp _⟩
      intro y hy
      match hr : rest with
      | [] => simp [canon] at hy
      | r :: rs =>
        rw [canon_cons] at hy
        simp only [List.map_cons, List.head?_cons] at hy
        have hy' : y = monthKey r :=
          (show monthKey r = y by simpa using hy).symm
        rw [hy']
        have h₁ : keyLe (monthKey t) (monthKey r) :=
          hlo r (hrestsub.mem (List.mem_cons_self r rs))
        have h₂ : monthKey r ≠ monthKey t := hrestne r (List.mem_cons_self r rs)
        exact keyLt_of_keyLe_ne h₁ (fun hc => h₂ hc.symm)

theorem canon_keys_chain (s : List Transaction)
    (hp : s.Pairwise (fun a b => keyLe (monthKey a) (monthKey b))) (b : ℚ) :
    List.Chain' keyLt ((canon s b).map Prod.fst) :=
  canon_keys_chain_aux s.length s le_rfl hp b

instance : IsTrans (ℕ × ℕ) keyLt := ⟨fun _ _ _ h₁ h₂ => keyLt_trans h₁ h₂⟩

/-- On a sorted input the canonical bucket keys are distinct. -/
theorem canon_keys_nodup (s : List Transaction)
    (hp : s.Pairwise (fun a b => keyLe (monthKey a) (monthKey b))) (b : ℚ) :
    ((canon s b).map Prod.fst).Nodup := by
  have h := List.chain'_iff_pairwise.mp (canon_keys_chain s hp b)
  exact h.imp (fun hab => by rintro rfl; exact keyLt_irrefl _ hab)

/-! ### Permutation invariance -/

theorem incSum_perm {s₁ s₂ : List Transaction} (h : s₁.Perm s₂) :
    incSum s₁ = incSum s₂ :=
  (h.map incOf).sum_eq

theorem expSum_perm {s₁ s₂ : List Transaction} (h : s₁.Perm s₂) :
    expSum s₁ = expSum s₂ :=
  (h.map expOf).sum_eq

theorem signedSum_perm {s₁ s₂ : List Transaction} (h : s₁.Perm s₂) :
    signedSum s₁ = signedSum s₂ :=
  (h.map signed).sum_eq

/-- On a chronologically sorted list the maximal prefix of month key `k`
(where `k` bounds every key below) is exactly the set of `k`-keyed
elements, and the remainder is exactly the rest. -/
theorem takeWhile_dropWhile_eq_filter_key {k : ℕ × ℕ} :
    ∀ {s : List Transaction},
    s.Pairwise (fun a b => keyLe (monthKey a) (monthKey b)) →
    (∀ u ∈ s, keyLe k (monthKey u)) →
    s.takeWhile (fun u => decide (monthKey u = k)) =
      s.filter (fun u => decide (monthKey u = k)) ∧
    s.dropWhile (fun u => decide (monthKey u = k)) =
      s.filter (fun u => !(decide (monthKey u = k))) := by
  intro s
  induction s with
  | nil => intro _ _; simp
  | cons v vs ih =>
    intro hp hlo
    rcases List.pairwise_cons.mp hp with ⟨hv, hvs⟩
    by_cases hvk : monthKey v = k
    · have ih' := ih hvs (fun w hw => hlo w (List.mem_cons_of_mem v hw))
      have h1 : (decide (monthKey v = k)) = true := decide_eq_true hvk
      constructor
      · rw [List.takeWhile_cons, if_pos h1, List.filter_cons, if_pos h1, ih'.1]
      · rw [List.dropWhile_cons, if_pos h1, List.filter_cons,
          if_neg (by simp [hvk]), ih'.2]
    · have hnone : ∀ w ∈ vs, ¬ monthKey w = k := by
        intro w hw hc
        have h₁ : keyLe (monthKey v) k := hc ▸ hv w hw
        have h₂ : keyLe k (monthKey v) := hlo v (List.mem_cons_self v vs)
        exact hvk (keyLe_antisymm h₁ h₂)
      have h1 : (decide (monthKey v = k)) = false := decide_eq_false hvk
      constructor
      · rw [List.takeWhile_cons, if_neg (by simp [h1])]
        symm
        rw [List.filter_cons, if_neg (by simp [h1])]
        apply List.filter_eq_nil_iff.mpr
        intro a ha
        simp [hnone a ha]
      · rw [List.dropWhile_cons, if_neg (by simp [h1])]
        symm
        rw [List.filter_cons, if_pos (by simp [h1])]
        congr 1
        apply List.filter_eq_self.mpr
        intro a ha
        simp [hnone a ha]

/-- Two chronologically sorted permutations of the same transactions
yield the same canonical bucket list. -/
theorem canon_perm_aux (n : ℕ) :
    ∀ (s₁ s₂ : List Transaction), s₁.length ≤ n → s₁.Perm s₂ →
    s₁.Pairwise (fun a b => keyLe (monthKey a) (monthKey b)) →
    s₂.Pairwise (fun a b => keyLe (monthKey a) (monthKey b)) →
    ∀ (b : ℚ), canon s₁ b = canon s₂ b := by
  induction n with
  | zero =>
    intro s₁ s₂ hs hperm _ _ b
    have h₁ : s₁ = [] := List.length_eq_zero.mp (Nat.le_zero.mp hs)
    have h₂ : s₂ = [] := by
      subst h₁; exact hperm.symm.eq_nil
    rw [h₁, h₂]
  | succ n ih =>
    intro s₁ s₂ hs hperm hp₁ hp₂ b
    match s₁, s₂ with
    | [], s₂ =>
      rw [hperm.symm.eq_nil]
    | t₁ :: ts₁, [] =>
      have := hperm.length_eq
      simp at this
    | t₁ :: ts₁, t₂ :: ts₂ =>
      have hk : monthKey t₁ = monthKey t₂ := by
        have h₁ : keyLe (monthKey t₁) (monthKey t₂) := by
          have ht₂ : t₂ ∈ t₁ :: ts₁ := hperm.symm.subset (List.mem_cons_self _ _)
          rcases List.mem_cons.mp ht₂ with h | h
          · rw [h]; exact keyLe_refl _
          · exact (List.pairwise_cons.mp hp₁).1 t₂ h
        have h₂ : keyLe (monthKey t₂) (monthKey t₁) := by
          have ht₁ : t₁ ∈ t₂ :: ts₂ := hperm.subset (List.mem_cons_self _ _)
          rcases List.mem_cons.mp ht₁ with h | h
          · rw [h]; exact keyLe_refl _
          · exact (List.pairwise_cons.mp hp₂).1 t₁ h
        exact keyLe_antisymm h₁ h₂
      have hlo₁ : ∀ u ∈ t₁ :: ts₁, keyLe (monthKey t₁) (monthKey u) := by
        intro u hu
        rcases List.mem_cons.mp hu with hu | hu
        · rw [hu]; exact keyLe_refl _
        · exact (List.pairwise_cons.mp hp₁).1 u hu
      have hlo₂ : ∀ u ∈ t₂ :: ts₂, keyLe (monthKey t₁) (monthKey u) := by
        intro u hu
        rcases List.mem_cons.mp hu with hu | hu
        · rw [hu, hk]; exact keyLe_refl _
        · exact hk ▸ (List.pairwise_cons.mp hp₂).1 u hu
      have hf₁ := takeWhile_dropWhile_eq_filter_key (k := monthKey t₁) hp₁ hlo₁
      have hf₂ := takeWhile_dropWhile_eq_filter_key (k := monthKey t₁) hp₂ hlo₂
      have hgrpp : ((t₁ :: ts₁).takeWhile (fun u => decide (monthKey u = monthKey t₁))).Perm
          ((t₂ :: ts₂).takeWhile (fun u => decide (monthKey u = monthKey t₁))) := by
        rw [hf₁.1, hf₂.1]
        exact hperm.filter _
      have hrestp : ((t₁ :: ts₁).dropWhile (fun u => decide (monthKey u = monthKey t₁))).Perm
          ((t₂ :: ts₂).dropWhile (fun u => decide (monthKey u = monthKey t₁))) := by
        rw [hf₁.2, hf₂.2]
        exact hperm.filter _
      have hlen : ((t₁ :: ts₁).dropWhile
          (fun u => decide (monthKey u = monthKey t₁))).length ≤ n := by
        rw [List.dropWhile_cons, if_pos (by simp)]
        have h₁ := (List.dropWhile_sublist
          (l := ts₁) (fun u => decide (monthKey u = monthKey t₁))).length_le
        have h₂ : ts₁.length + 1 ≤ n + 1 := by simpa using hs
        omega
      have hsort₁ : ((t₁ :: ts₁).dropWhile
          (fun u => decide (monthKey u = monthKey t₁))).Pairwise
          (fun a b => keyLe (monthKey a) (monthKey b)) :=
        hp₁.sublist (List.dropWhile_sublist _)
      have hsort₂ : ((t₂ :: ts₂).dropWhile
          (fun u => decide (monthKey u = monthKey t₁))).Pairwise
          (fun a b => keyLe (monthKey a) (monthKey b)) :=
        hp₂.sublist (List.dropWhile_sublist _)
      have e₁ : incSum ((t₁ :: ts₁).takeWhile (fun u => decide (monthKey u = monthKey t₁))) =
          incSum ((t₂ :: ts₂).takeWhile (fun u => decide (monthKey u = monthKey t₁))) :=
        incSum_perm hgrpp
      have e₂ : expSum ((t₁ :: ts₁).takeWhile (fun u => decide (monthKey u = monthKey t₁))) =
          expSum ((t₂ :: ts₂).takeWhile (fun u => decide (monthKey u = monthKey t₁))) :=
        expSum_perm hgrpp
      have e₃ : signedSum ((t₁ :: ts₁).takeWhile (fun u => decide (monthKey u = monthKey t₁))) =
          signedSum ((t₂ :: ts₂).takeWhile (fun u => decide (monthKey u = monthKey t₁))) :=
        signedSum_perm hgrpp
      have ec := ih _ _ hlen hrestp hsort₁ hsort₂
        (b + signedSum ((t₂ :: ts₂).takeWhile (fun u => decide (monthKey u = monthKey t₁))))
      rw [canon_cons, canon_cons, ← hk, e₁, e₂, e₃, ec]

theorem canon_perm {s₁ s₂ : List Transaction} (hperm : s₁.Perm s₂)
    (hp₁ : s₁.Pairwise (fun a b => keyLe (monthKey a) (monthKey b)))
    (hp₂ : s₂.Pairwise (fun a b => keyLe (monthKey a) (monthKey b)))
    (b : ℚ) : canon s₁ b = canon s₂ b :=
  canon_perm_aux s₁.length s₁ s₂ le_rfl hperm hp₁ hp₂ b

/-- `monthlyData` depends only on the multiset of transactions. -/
theorem monthlyData_perm {l₁ l₂ : List Transaction} (h : l₁.Perm l₂) :
    monthlyData l₁ = monthlyData l₂ := by
  rw [monthlyData_eq_canon, monthlyData_eq_canon]
  exact canon_perm
    ((sortedTransactions_perm l₁).trans (h.trans (sortedTransactions_perm l₂).symm))
    (pairwise_keyLe_of_pairwise_dateLeP (sortedTransactions_pairwise l₁))
    (pairwise_keyLe_of_pairwise_dateLeP (sortedTransactions_pairwise l₂)) 0

/-! ### The emitted chart series -/

theorem jsOrZero_eq (x : ℚ) : jsOrZero x = x := by
  by_cases h : x = 0 <;> simp [jsOrZero, h]

theorem chain'_drop {α : Type} {R : α → α → Prop} (n : ℕ) {l : List α}
    (h : List.Chain' R l) : List.Chain' R (l.drop n) := by
  induction n with
  | zero => exact h
  | succ n ih => rw [← List.tail_drop]; exact ih.tail

theorem lookupKey_of_mem {d : List ((ℕ × ℕ) × MonthAgg)}
    (hnd : (d.map Prod.fst).Nodup) {e : (ℕ × ℕ) × MonthAgg} (he : e ∈ d) :
    lookupKey d e.1 = some e.2 := by
  induction d with
  | nil => cases he
  | cons f fs ih =>
    simp only [List.map_cons, List.nodup_cons] at hnd
    rcases List.mem_cons.mp he with he | he
    · rw [he, lookupKey, if_pos rfl]
    · rw [lookupKey, if_neg, ih hnd.2 he]
      intro hc
      exact hnd.1 (hc ▸ List.mem_map_of_mem Prod.fst he)

/-- The part of `monthlyData` that the chart emits (`slice(-6)`). -/
def slicedData (l : List Transaction) : List ((ℕ × ℕ) × MonthAgg) :=
  (monthlyData l).drop ((monthlyData l).length - 6)

theorem monthlyData_keys_nodup (l : List Transaction) :
    ((monthlyData l).map Prod.fst).Nodup := by
  rw [monthlyData_eq_canon]
  exact canon_keys_nodup _
    (pairwise_keyLe_of_pairwise_dateLeP (sortedTransactions_pairwise l)) 0

theorem labels_eq_sliced (l : List Transaction) :
    labels l = (slicedData l).map Prod.fst := by
  unfold labels slicedData
  simp only [List.map_drop, List.length_map]

theorem slicedData_subset (l : List Transaction) :
    slicedData l ⊆ monthlyData l :=
  List.drop_subset _ _

theorem incomeData_eq_sliced (l : List Transaction) :
    incomeData l = (slicedData l).map (fun e => e.2.income) := by
  unfold incomeData
  rw [labels_eq_sliced, List.map_map]
  apply List.map_congr_left
  intro e he
  simp only [Function.comp]
  rw [lookupKey_of_mem (monthlyData_keys_nodup l) (slicedData_subset l he)]
  simp [jsProj, jsOrZero_eq]

theorem expenseData_eq_sliced (l : List Transaction) :
    expenseData l = (slicedData l).map (fun e => e.2.expenses) := by
  unfold expenseData
  rw [labels_eq_sliced, List.map_map]
  apply List.map_congr_left
  intro e he
  simp only [Function.comp]
  rw [lookupKey_of_mem (monthlyData_keys_nodup l) (slicedData_subset l he)]
  simp [jsProj, jsOrZero_eq]

theorem balanceData_eq_sliced (l : List Transaction) :
    balanceData l = (slicedData l).map (fun e => e.2.balance) := by
  unfold balanceData
  rw [labels_eq_sliced, List.map_map]
  apply List.map_congr_left
  intro e he
  simp only [Function.comp]
  rw [lookupKey_of_mem (monthlyData_keys_nodup l) (slicedData_subset l he)]
  simp [jsProj, jsOrZero_eq]

theorem slicedData_chain_balance (l : List Transaction) :
    List.Chain' (fun e₁ e₂ : (ℕ × ℕ) × MonthAgg =>
      e₂.2.balance = e₁.2.balance + e₂.2.income - e₂.2.expenses) (slicedData l) := by
  apply chain'_drop
  rw [monthlyData_eq_canon]
  exact canon_chain_balance _ 0

theorem monthlyData_keys_chain (l : List Transaction) :
    List.Chain' keyLt ((monthlyData l).map Prod.fst) := by
  rw [monthlyData_eq_canon]
  exact canon_keys_chain _
    (pairwise_keyLe_of_pairwise_dateLeP (sortedTransactions_pairwise l)) 0

theorem labels_chain (l : List Transaction) :
    List.Chain' keyLt (labels l) := by
  unfold labels
  exact chain'_drop _ (monthlyData_keys_chain l)

theorem monthlyData_keys_mem (l : List Transaction) (k : ℕ × ℕ) :
    k ∈ (monthlyData l).map Prod.fst ↔ ∃ t ∈ l, monthKey t = k := by
  rw [monthlyData_eq_canon, canon_keys_mem]
  constructor
  · rintro ⟨t, ht, hk⟩
    exact ⟨t, (sortedTransactions_perm l).subset ht, hk⟩
  · rintro ⟨t, ht, hk⟩
    exact ⟨t, (sortedTransactions_perm l).symm.subset ht, hk⟩

/-! ### Daily ledger (spec-modelled backend aggregator) -/

/-- Modelled from the spec: the backend DailyAggregator (§4.3) is not
under `src/` (the repository ships only the backend's start script), so
a materialized `ProjectionItem` is modelled with the fields the
aggregator reads: day, kind and amount. Days are abstract day numbers;
a contiguous range is an interval of naturals. -/
structure PItem where
  day : ℕ
  kind : TxType
  amount : ℚ
deriving DecidableEq, Repr

/-- One persisted `DailyLedgerEntry` (spec §3). -/
structure LedgerEntry where
  day : ℕ
  incomeTotal : ℚ
  expenseTotal : ℚ
  netFlow : ℚ
  runningBalance : ℚ
deriving DecidableEq, Repr

/-- Modelled from the spec: `incomeTotal = Σ amount where kind=income`
for a given day (§4.3). -/
def dayIncome (items : List PItem) (d : ℕ) : ℚ :=
  ((items.filter (fun it => decide (it.day = d) &&
    decide (it.kind = TxType.income))).map (·.amount)).sum

/-- Modelled from the spec: `expenseTotal = Σ amount where kind=expense`
for a given day (§4.3). -/
def dayExpense (items : List PItem) (d : ℕ) : ℚ :=
  ((items.filter (fun it => decide (it.day = d) &&
    decide (it.kind = TxType.expense))).map (·.amount)).sum

/-- Modelled from the spec: dense day-by-day ledger starting at day `d`
for `n` days, threading the running balance (§4.3). -/
def aggFrom (items : List PItem) : ℕ → ℕ → ℚ → List LedgerEntry
  | _, 0, _ => []
  | d, Nat.succ n, bal =>
    let inc := dayIncome items d
    let ex := dayExpense items d
    ⟨d, inc, ex, inc - ex, bal + (inc - ex)⟩ ::
      aggFrom items (d + 1) n (bal + (inc - ex))

/-- Modelled from the spec: `aggregate(items, rangeStart, rangeEnd,
startingBalance)` producing one entry per day of the inclusive range. -/
def aggregate (items : List PItem) (rangeStart rangeEnd : ℕ) (b₀ : ℚ) :
    List LedgerEntry :=
  aggFrom items rangeStart (rangeEnd + 1 - rangeStart) b₀

theorem aggFrom_head (items : List PItem) (d n : ℕ) (bal : ℚ)
    (e : LedgerEntry) (h : (aggFrom items d n bal).head? = some e) :
    e.runningBalance = bal + e.netFlow := by
  match n with
  | 0 => simp [aggFrom] at h
  | Nat.succ n =>
    rw [aggFrom] at h
    simp only [List.head?_cons, Option.some.injEq] at h
    rw [← h]

theorem aggFrom_chain (items : List PItem) :
    ∀ (n d : ℕ) (bal : ℚ),
    List.Chain' (fun e₁ e₂ : LedgerEntry =>
      e₂.runningBalance = e₁.runningBalance + e₂.netFlow)
      (aggFrom items d n bal) := by
  intro n
  induction n with
  | zero => intro d bal; simp [aggFrom]
  | succ n ih =>
    intro d bal
    rw [aggFrom]
    refine List.chain'_cons'.mpr ⟨?_, ih (d + 1) _⟩
    intro y hy
    have := aggFrom_head items (d + 1) n _ y hy
    simpa using this

/-! ### Claim C1 -/

/-- C1: in the daily ledger (DailyAggregator, modelled from the spec
because the backend is not in `src/`), the running balance of every day
after the first equals the previous day's running balance plus the
day's net flow, and the first day's running balance is the starting
balance plus the first day's net flow; correspondingly, in
`CashFlowChart.processData`, the emitted per-month series satisfies
`balance[m] = balance[m-1] + income[m] − expenses[m]` for every emitted
month after the first. -/
theorem C1_running_balance_recurrence (items : List PItem)
    (s e : ℕ) (b₀ : ℚ) (l : List Transaction) :
    List.Chain' (fun e₁ e₂ : LedgerEntry =>
      e₂.runningBalance = e₁.runningBalance + e₂.netFlow)
      (aggregate items s e b₀) ∧
    (∀ e₀ ∈ (aggregate items s e b₀).head?,
      e₀.runningBalance = b₀ + e₀.netFlow) ∧
    incomeData l = (slicedData l).map (fun en => en.2.income) ∧
    expenseData l = (slicedData l).map (fun en => en.2.expenses) ∧
    balanceData l = (slicedData l).map (fun en => en.2.balance) ∧
    List.Chain' (fun e₁ e₂ : (ℕ × ℕ) × MonthAgg =>
      e₂.2.balance = e₁.2.balance + e₂.2.income - e₂.2.expenses)
      (slicedData l) :=
  ⟨aggFrom_chain items _ s b₀,
   fun e₀ he₀ => aggFrom_head items s _ b₀ e₀ he₀,
   incomeData_eq_sliced l,
   expenseData_eq_sliced l,
   balanceData_eq_sliced l,
   slicedData_chain_balance l⟩

/-- C1 witness: concrete evaluation — one income item of 5 on day 0 with
starting balance 10 gives a first ledger entry with running balance
`10 + 5`, discharging the head-entry hypothesis at that input. -/
theorem C1_running_balance_recurrence_witness :
    (aggregate [⟨0, TxType.income, 5⟩] 0 1 10).head? =
      some ⟨0, 5, 0, 5, 15⟩ ∧
    (⟨0, 5, 0, 5, 15⟩ : LedgerEntry).runningBalance =
      10 + (⟨0, 5, 0, 5, 15⟩ : LedgerEntry).netFlow := by
  have hhead : (aggregate [⟨0, TxType.income, 5⟩] 0 1 10).head? =
      some ⟨0, 5, 0, 5, 15⟩ := by
    have hne : TxType.income ≠ TxType.expense := by decide
    norm_num [aggregate, aggFrom, dayIncome, dayExpense,
      List.filter_cons, List.filter_nil, hne]
  exact ⟨hhead,
    (C1_running_balance_recurrence [⟨0, TxType.income, 5⟩] 0 1 10 []).2.1
      ⟨0, 5, 0, 5, 15⟩ (by simp [Option.mem_def, hhead])⟩

/-! ### Claim C2 -/

/-- C2 counterexample: transactions in January and March 2024 only.
`processData` emits exactly the two months that contain a transaction;
the in-range empty month February 2024 is not emitted at all, whereas
the claim requires an empty bucket with zero flow for it. -/
theorem C2_empty_bucket_counterexample :
    (monthlyData [⟨2024, 1, 15, TxType.income, 100⟩,
                  ⟨2024, 3, 10, TxType.expense, 50⟩]).map Prod.fst =
      [(2024, 1), (2024, 3)] ∧
    labels [⟨2024, 1, 15, TxType.income, 100⟩,
            ⟨2024, 3, 10, TxType.expense, 50⟩] = [(2024, 1), (2024, 3)] ∧
    keyLt (2024, 1) (2024, 2) ∧ keyLt (2024, 2) (2024, 3) ∧
    (2024, 2) ∉ (monthlyData [⟨2024, 1, 15, TxType.income, 100⟩,
                  ⟨2024, 3, 10, TxType.expense, 50⟩]).map Prod.fst := by
  refine ⟨by decide, by decide, by decide, by decide, by decide⟩

/-- C2 (amended): the monthly buckets of `CashFlowChart.processData` are
emitted in strictly chronological order, but a month key is emitted iff
some transaction falls in that month — empty months inside the range
are skipped, not emitted with zero flow. -/
theorem C2_monthly_buckets_chronological (l : List Transaction) :
    List.Chain' keyLt (labels l) ∧
    List.Chain' keyLt ((monthlyData l).map Prod.fst) ∧
    (∀ k, k ∈ (monthlyData l).map Prod.fst ↔ ∃ t ∈ l, monthKey t = k) :=
  ⟨labels_chain l, monthlyData_keys_chain l, fun k => monthlyData_keys_mem l k⟩

/-- C2 witness: at a concrete two-transaction input, January 2024 is an
emitted key because a transaction falls in it. -/
theorem C2_monthly_buckets_chronological_witness :
    (2024, 1) ∈ (monthlyData [⟨2024, 1, 15, TxType.income, 100⟩,
        ⟨2024, 3, 10, TxType.expense, 50⟩]).map Prod.fst :=
  ((C2_monthly_buckets_chronological
      [⟨2024, 1, 15, TxType.income, 100⟩, ⟨2024, 3, 10, TxType.expense, 50⟩]).2.2
    (2024, 1)).mpr
    ⟨⟨2024, 1, 15, TxType.income, 100⟩, by decide, by decide⟩

/-! ### Claim C7 -/

/-- C7: `CashFlowChart.processData` yields identical per-month income
totals, expense totals and per-month balances (and identical labels) on
any permutation of its input transaction list. -/
theorem C7_permutation_invariance (l₁ l₂ : List Transaction)
    (h : l₁.Perm l₂) :
    monthlyData l₁ = monthlyData l₂ ∧ labels l₁ = labels l₂ ∧
    incomeData l₁ = incomeData l₂ ∧ expenseData l₁ = expenseData l₂ ∧
    balanceData l₁ = balanceData l₂ := by
  have hm := monthlyData_perm h
  have hl : labels l₁ = labels l₂ := by
    unfold labels; rw [hm]
  refine ⟨hm, hl, ?_, ?_, ?_⟩ <;>
    simp only [incomeData, expenseData, balanceData, hm, hl]

/-- C7 witness: swapping two same-day transactions leaves the whole
chart output unchanged; the permutation hypothesis is discharged by the
explicit swap. -/
theorem C7_permutation_invariance_witness :
    monthlyData [⟨2024, 1, 2, TxType.income, 3⟩, ⟨2024, 1, 2, TxType.expense, 4⟩] =
      monthlyData [⟨2024, 1, 2, TxType.expense, 4⟩, ⟨2024, 1, 2, TxType.income, 3⟩] ∧
    balanceData [⟨2024, 1, 2, TxType.income, 3⟩, ⟨2024, 1, 2, TxType.expense, 4⟩] =
      balanceData [⟨2024, 1, 2, TxType.expense, 4⟩, ⟨2024, 1, 2, TxType.income, 3⟩] :=
  ⟨(C7_permutation_invariance _ _ (List.Perm.swap _ _ _)).1,
   (C7_permutation_invariance _ _ (List.Perm.swap _ _ _)).2.2.2.2⟩

/-! ### Schema-level claims (supabase_setup.sql and form validations) -/

/-- The admissible values of `ProjectionItem.source_type` declared in
`src/frontend/src/types/index.ts` line 184
(`'recurring_income' | 'recurring_expense'`). -/
def tsProjectionItemSourceTypes : List String :=
  ["recurring_income", "recurring_expense"]

/-- The source-type set named by the spec (§3, ProjectionItem). -/
def specSourceTypes : List String :=
  ["recurring_income", "recurring_expense", "one_off"]

/-- One row of `projection_items` (supabase_setup.sql 156–168),
restricted to the CHECK-relevant columns. -/
structure ProjectionItemRow where
  item_type : String
  source_type : String
  amount : ℚ
deriving DecidableEq, Repr

/-- The CHECK constraints of `projection_items`: only `item_type` is
constrained; `source_type` is an unconstrained `VARCHAR NOT NULL`. -/
def projectionItemRowChecks (r : ProjectionItemRow) : Bool :=
  decide (r.item_type = "income" ∨ r.item_type = "expense")

/-- C3 counterexample: `one_off` is not among the source types the
frontend `ProjectionItem` declaration admits, so an item materialized
from a OneOffItem cannot carry `sourceType one_off` under that type. -/
theorem C3_one_off_not_declared :
    "one_off" ∉ tsProjectionItemSourceTypes ∧
    "one_off" ∈ specSourceTypes := by
  refine ⟨by decide, by decide⟩

/-- C3 (amended): the source types declared for `ProjectionItem` in the
frontend are `recurring_income` and `recurring_expense` only — a strict
subset of the spec's three-element set, without `one_off` — and the
database column `projection_items.source_type` carries no CHECK
constraint at all (changing it never affects row validity). -/
theorem C3_source_types (r : ProjectionItemRow) (s s' : String)
    (hs : s ∈ tsProjectionItemSourceTypes) :
    s ∈ specSourceTypes ∧
    projectionItemRowChecks { r with source_type := s' } =
      projectionItemRowChecks r := by
  constructor
  · fin_cases hs <;> decide
  · rfl

/-- C3 witness: `recurring_income` is declared and lies in the spec's
set; the membership hypothesis is discharged concretely. -/
theorem C3_source_types_witness :
    "recurring_income" ∈ tsProjectionItemSourceTypes ∧
    "recurring_income" ∈ specSourceTypes :=
  ⟨by decide,
   (C3_source_types ⟨"income", "recurring_income", 1⟩ "recurring_income" "x"
     (by decide)).1⟩

/-- `CHECK (day_of_month >= 1 AND day_of_month <= 31)` on the
`recurring_income` and `recurring_expenses` tables
(supabase_setup.sql lines 88 and 110). -/
def sqlDayOfMonthOk (n : ℤ) : Bool := decide (1 ≤ n) && decide (n ≤ 31)

/-- The UI form bound on Day of Month (`min: 1`, `max: 28`,
src/unnamed/part_001 lines 701–712). -/
def formDayOfMonthOk (n : ℤ) : Bool := decide (1 ≤ n) && decide (n ≤ 28)

/-- One recurring-pattern row restricted to the CHECK-relevant columns
(supabase_setup.sql, `recurring_income` 79–97 and `recurring_expenses`
100–121 share these constraints). -/
structure RecurringRow where
  frequency : String
  day_of_month : Option ℤ
  day_of_week : Option ℤ
  is_active : String
deriving DecidableEq, Repr

/-- The CHECK constraints of the recurring tables. -/
def recurringRowChecks (r : RecurringRow) : Bool :=
  decide (r.frequency = "weekly" ∨ r.frequency = "monthly" ∨
    r.frequency = "quarterly" ∨ r.frequency = "annually") &&
  (match r.day_of_month with
   | none => true
   | some n => sqlDayOfMonthOk n) &&
  (match r.day_of_week with
   | none => true
   | some n => decide (0 ≤ n) && decide (n ≤ 6)) &&
  decide (r.is_active = "active" ∨ r.is_active = "paused" ∨
    r.is_active = "ended")

/-- C4 counterexample: a monthly pattern with `day_of_month = 29`
satisfies every CHECK constraint of the schema, so it can be persisted,
although 29 lies outside 1..28; only the UI form rejects it. -/
theorem C4_day29_counterexample :
    recurringRowChecks ⟨"monthly", some 29, none, "active"⟩ = true ∧
    ¬ ((29 : ℤ) ≤ 28) ∧
    formDayOfMonthOk 29 = false := by
  refine ⟨by decide, by decide, by decide⟩

/-- C4 (amended): the database CHECK bounds `day_of_month` to 1..31 (not
1..28); the UI form input additionally restricts it to 1..28, and every
form-accepted value is schema-accepted. So values 29–31 are rejected by
the form but can be persisted at the schema level. -/
theorem C4_day_of_month_bounds (n : ℤ) (r : RecurringRow) :
    (sqlDayOfMonthOk n = true ↔ 1 ≤ n ∧ n ≤ 31) ∧
    (formDayOfMonthOk n = true ↔ 1 ≤ n ∧ n ≤ 28) ∧
    (formDayOfMonthOk n = true → sqlDayOfMonthOk n = true) ∧
    (recurringRowChecks r = true → r.day_of_month = some n →
      1 ≤ n ∧ n ≤ 31) := by
  refine ⟨?_, ?_, ?_, ?_⟩
  · simp [sqlDayOfMonthOk]
  · simp [formDayOfMonthOk]
  · simp only [formDayOfMonthOk, sqlDayOfMonthOk, Bool.and_eq_true,
      decide_eq_true_eq]
    omega
  · intro h hd
    simp only [recurringRowChecks, hd, Bool.and_eq_true,
      decide_eq_true_eq] at h
    have := h.1.1.2
    simp only [sqlDayOfMonthOk, Bool.and_eq_true, decide_eq_true_eq] at this
    exact this

/-- C4 witness: 15 passes both the form bound and the schema bound. -/
theorem C4_day_of_month_bounds_witness :
    formDayOfMonthOk 15 = true ∧ sqlDayOfMonthOk 15 = true :=
  ⟨by decide,
   (C4_day_of_month_bounds 15 ⟨"monthly", some 15, none, "active"⟩).2.2.1
     (by decide)⟩

/-- One `one_off_items` row restricted to the CHECK-relevant columns
(supabase_setup.sql 123–140): the schema has no CHECK on `amount`. -/
structure OneOffRow where
  item_type : String
  is_confirmed : String
  amount : ℚ
deriving DecidableEq, Repr

/-- The CHECK constraints of `one_off_items` — none mentions `amount`. -/
def oneOffRowChecks (r : OneOffRow) : Bool :=
  decide (r.item_type = "income" ∨ r.item_type = "expense") &&
  decide (r.is_confirmed = "planned" ∨ r.is_confirmed = "confirmed" ∨
    r.is_confirmed = "completed" ∨ r.is_confirmed = "cancelled")

/-- The OneOffItems form validation on Amount (`min: 0.01`,
src/frontend/src/pages/OneOffItems.tsx 549–555). -/
def formAmountOk (a : ℚ) : Bool := decide ((1 : ℚ) / 100 ≤ a)

/-- C5 counterexample: a one-off row with `amount = 0` satisfies every
CHECK constraint of the schema, so persisting it is not rejected at the
database level, contradicting `amount > 0` as a persistence invariant. -/
theorem C5_zero_amount_counterexample :
    oneOffRowChecks ⟨"income", "planned", 0⟩ = true ∧ ¬ ((0 : ℚ) > 0) := by
  refine ⟨by decide, by norm_num⟩

/-- C5 (amended): the client form rejects amounts below 0.01 (so every
form-accepted amount is positive), but the database schema imposes no
positivity constraint: row validity never depends on the amount, so
zero or negative amounts can be persisted at the schema level. -/
theorem C5_amount_positivity (a a' : ℚ) (r : OneOffRow)
    (h : formAmountOk a = true) :
    0 < a ∧
    oneOffRowChecks { r with amount := a' } = oneOffRowChecks r := by
  constructor
  · have := of_decide_eq_true h
    linarith
  · rfl

/-- C5 witness: the form accepts 5, which is positive. -/
theorem C5_amount_positivity_witness :
    formAmountOk 5 = true ∧ (0 : ℚ) < 5 :=
  ⟨by norm_num [formAmountOk],
   (C5_amount_positivity 5 0 ⟨"income", "planned", 5⟩
     (by norm_num [formAmountOk])).1⟩

/-- SQL column types appearing in supabase_setup.sql, plus the binary
floating-point column type the claim rules out. -/
inductive SqlType where
  | decimalT (precision scale : ℕ)
  | varcharT
  | integerT
  | serialT
  | dateT
  | timestamptzT
  | textT
  | doublePrecisionT
deriving DecidableEq, Repr

/-- Every monetary column declared by the schema with its declared type
(supabase_setup.sql: recurring_income 83–84, recurring_expenses
104–105, one_off_items 128–129, cash_flow_projections 146–149,
projection_items 160–161, transactions 174). -/
def moneyColumns : List (String × String × SqlType) :=
  [("recurring_income", "amount", .decimalT 15 2),
   ("recurring_income", "vat_amount", .decimalT 15 2),
   ("recurring_expenses", "amount", .decimalT 15 2),
   ("recurring_expenses", "vat_amount", .decimalT 15 2),
   ("one_off_items", "amount", .decimalT 15 2),
   ("one_off_items", "vat_amount", .decimalT 15 2),
   ("cash_flow_projections", "income_amount", .decimalT 15 2),
   ("cash_flow_projections", "expense_amount", .decimalT 15 2),
   ("cash_flow_projections", "net_flow", .decimalT 15 2),
   ("cash_flow_projections", "running_balance", .decimalT 15 2),
   ("projection_items", "amount", .decimalT 15 2),
   ("projection_items", "vat_amount", .decimalT 15 2),
   ("transactions", "amount", .decimalT 15 2)]

/-- A binary floating-point SQL column type. -/
def isBinaryFloat : SqlType → Bool
  | .doublePrecisionT => true
  | _ => false

/-- An exact decimal type with exactly 2 fraction digits. -/
def isExactDecimalScale2 : SqlType → Bool
  | .decimalT _ s => decide (s = 2)
  | _ => false

/-- C8: every monetary column of the schema (amount, vat_amount,
income_amount, expense_amount, net_flow, running_balance across the
recurring, one-off, projection and transaction tables) is declared
`DECIMAL(15, 2)` — exact decimal with 2 fraction digits — and none is a
binary floating-point column. -/
theorem C8_money_columns_decimal :
    moneyColumns.all
      (fun c => decide (c.2.2 = SqlType.decimalT 15 2)) = true ∧
    moneyColumns.all
      (fun c => isExactDecimalScale2 c.2.2 && !isBinaryFloat c.2.2) = true ∧
    moneyColumns.length = 13 := by
  refine ⟨by decide, by decide, by decide⟩

/-! ### Projections-page summary totals (C6, C9) -/

/-- One row of the Projections-page summary response
(`ProjectionSummaryItem`, Projections.tsx 45–51). -/
structure PSItem where
  period : String
  income : ℚ
  expenses : ℚ
  net_flow : ℚ
  running_balance : ℚ
deriving DecidableEq, Repr

/-- `summary.reduce((sum, item) => sum + item.net_flow, 0)` — the
net-flow total of `exportToJSON` (Projections.tsx 237). -/
def jsonNetFlowTotal (s : List PSItem) : ℚ :=
  s.foldl (fun acc it => acc + it.net_flow) 0

/-- `summary.reduce((sum, item) => sum + item.income, 0)`
(Projections.tsx 235 and 286). -/
def totalIncome (s : List PSItem) : ℚ :=
  s.foldl (fun acc it => acc + it.income) 0

/-- `summary.reduce((sum, item) => sum + item.expenses, 0)`
(Projections.tsx 236 and 287). -/
def totalExpenses (s : List PSItem) : ℚ :=
  s.foldl (fun acc it => acc + it.expenses) 0

/-- `const netFlow = totalIncome - totalExpenses` — the net flow of
`exportToPDF` (Projections.tsx 288). -/
def pdfNetFlow (s : List PSItem) : ℚ := totalIncome s - totalExpenses s

theorem foldl_add_eq (f : PSItem → ℚ) (s : List PSItem) (b : ℚ) :
    s.foldl (fun acc it => acc + f it) b = b + (s.map f).sum := by
  induction s generalizing b with
  | nil => simp
  | cons it its ih =>
    rw [List.foldl_cons, ih, List.map_cons, List.sum_cons]
    ring

/-- C6: if every bucket satisfies `net_flow = income − expenses`, the
net-flow total computed by `exportToJSON` (summing per-bucket net_flow)
equals the net-flow total computed by `exportToPDF`
(total income − total expenses) on the same summary. -/
theorem C6_net_flow_conservation (s : List PSItem)
    (h : ∀ it ∈ s, it.net_flow = it.income - it.expenses) :
    jsonNetFlowTotal s = pdfNetFlow s := by
  unfold jsonNetFlowTotal pdfNetFlow totalIncome totalExpenses
  rw [foldl_add_eq, foldl_add_eq, foldl_add_eq]
  simp only [zero_add]
  rw [List.map_congr_left h]
  have hsub : ∀ (l : List PSItem),
      (l.map (fun it => it.income - it.expenses)).sum =
        (l.map (fun it => it.income)).sum -
          (l.map (fun it => it.expenses)).sum := by
    intro l
    induction l with
    | nil => simp
    | cons f fs ih =>
      simp only [List.map_cons, List.sum_cons, ih]
      ring
  exact hsub s

/-- C6 witness: a concrete two-bucket summary with consistent net flows;
both export formulas give 4. -/
theorem C6_net_flow_conservation_witness :
    (∀ it ∈ [(⟨"2024-01", 3, 1, 2, 2⟩ : PSItem), ⟨"2024-02", 5, 3, 2, 4⟩],
      it.net_flow = it.income - it.expenses) ∧
    jsonNetFlowTotal [⟨"2024-01", 3, 1, 2, 2⟩, ⟨"2024-02", 5, 3, 2, 4⟩] =
      pdfNetFlow [⟨"2024-01", 3, 1, 2, 2⟩, ⟨"2024-02", 5, 3, 2, 4⟩] := by
  have h : ∀ it ∈ [(⟨"2024-01", 3, 1, 2, 2⟩ : PSItem), ⟨"2024-02", 5, 3, 2, 4⟩],
      it.net_flow = it.income - it.expenses := by
    intro it hit
    rcases List.mem_cons.mp hit with hit | hit
    · rw [hit]; norm_num
    · rcases List.mem_cons.mp hit with hit | hit
      · rw [hit]; norm_num
      · cases hit
  exact ⟨h, C6_net_flow_conservation _ h⟩

/-- `summary[summary.length - 1]?.running_balance || 0` as computed by
`exportToJSON` for `totals.final_balance` (Projections.tsx 239). -/
def jsonFinalBalance (s : List PSItem) : ℚ :=
  jsProj ((s.get? (s.length - 1)).map (·.running_balance))

/-- The same expression as computed by `exportToPDF` for
`finalBalance` (Projections.tsx 291). -/
def pdfFinalBalance (s : List PSItem) : ℚ :=
  jsProj ((s.get? (s.length - 1)).map (·.running_balance))

/-- The same expression rendered by the Final Balance summary card
(Projections.tsx 677–678). -/
def cardFinalBalance (s : List PSItem) : ℚ :=
  jsProj ((s.get? (s.length - 1)).map (·.running_balance))

/-- C9: the Final Balance reported by the summary card, the JSON export
and the PDF report agree; it is 0 on an empty summary, and otherwise
equals the running balance of the last summary entry (hence 0 when that
running balance is 0). -/
theorem C9_final_balance (s : List PSItem) :
    jsonFinalBalance s = cardFinalBalance s ∧
    pdfFinalBalance s = cardFinalBalance s ∧
    (s = [] → jsonFinalBalance s = 0) ∧
    (∀ e, s.getLast? = some e →
      jsonFinalBalance s = e.running_balance ∧
      (e.running_balance = 0 → jsonFinalBalance s = 0)) := by
  refine ⟨rfl, rfl, ?_, ?_⟩
  · rintro rfl
    rfl
  · intro e he
    have hg : s.get? (s.length - 1) = some e := by
      rw [List.get?_eq_getElem?, ← List.getLast?_eq_getElem?]
      exact he
    have h₁ : jsonFinalBalance s = e.running_balance := by
      unfold jsonFinalBalance
      rw [hg]
      simp [jsProj, jsOrZero_eq]
    exact ⟨h₁, fun h0 => by rw [h₁, h0]⟩

/-- C9 witness: a one-entry summary with running balance 7 reports 7. -/
theorem C9_final_balance_witness :
    ([(⟨"2024-01", 0, 0, 0, 7⟩ : PSItem)].getLast? = some ⟨"2024-01", 0, 0, 0, 7⟩) ∧
    jsonFinalBalance [⟨"2024-01", 0, 0, 0, 7⟩] =
      (⟨"2024-01", 0, 0, 0, 7⟩ : PSItem).running_balance :=
  ⟨rfl, ((C9_final_balance [⟨"2024-01", 0, 0, 0, 7⟩]).2.2.2
    ⟨"2024-01", 0, 0, 0, 7⟩ rfl).1⟩

/-! ### formatCurrency (C10) -/

/-- A JS number reaching `formatCurrency`: NaN, ±∞, or finite. -/
inductive JsNum where
  | nan
  | posInf
  | negInf
  | finite (q : ℚ)
deriving DecidableEq, Repr

/-- `CurrencyConfig` (src/frontend/src/utils/currency.ts 3–8). -/
structure CurrencyConfig where
  code : String
  symbol : String
  name : String
  locale : String
deriving DecidableEq, Repr

/-- The `CURRENCIES` record (currency.ts 9–21), in declaration order. -/
def CURRENCIES : List (String × CurrencyConfig) :=
  [("USD", ⟨"USD", "$", "US Dollar", "en-US"⟩),
   ("EUR", ⟨"EUR", "€", "Euro", "de-DE"⟩),
   ("GBP", ⟨"GBP", "£", "British Pound", "en-GB"⟩),
   ("JPY", ⟨"JPY", "¥", "Japanese Yen", "ja-JP"⟩),
   ("CAD", ⟨"CAD", "C$", "Canadian Dollar", "en-CA"⟩),
   ("AUD", ⟨"AUD", "A$", "Australian Dollar", "en-AU"⟩),
   ("CHF", ⟨"CHF", "CHF", "Swiss Franc", "de-CH"⟩),
   ("CNY", ⟨"CNY", "¥", "Chinese Yuan", "zh-CN"⟩),
   ("INR", ⟨"INR", "₹", "Indian Rupee", "en-IN"⟩),
   ("BRL", ⟨"BRL", "R$", "Brazilian Real", "pt-BR"⟩),
   ("PHP", ⟨"PHP", "₱", "Philippine Peso", "en-PH"⟩)]

/-- `CURRENCIES[currencyCode]` property access. -/
def lookupCurrency (c : String) : Option CurrencyConfig :=
  (CURRENCIES.find? (fun e => e.1 = c)).map Prod.snd

/-- `CURRENCIES[currencyCode] || CURRENCIES.USD` (currency.ts 24). -/
def resolveConfig (c : String) : CurrencyConfig :=
  (lookupCurrency c).getD ⟨"USD", "$", "US Dollar", "en-US"⟩

/-- `if (isNaN(amount) || !isFinite(amount)) amount = 0`
(currency.ts 27–29). -/
def sanitizeAmount : JsNum → ℚ
  | .finite q => q
  | _ => 0

/-- Modelled from the spec: the exact string produced by
`Intl.NumberFormat(locale, {currency}).format` is host-dependent and
not in the repository; it is modelled as a concrete total rendering of
the resolved config and the sanitized amount. -/
def intlFormat (cfg : CurrencyConfig) (x : ℚ) : String :=
  cfg.locale ++ ":" ++ cfg.code ++ ":" ++ cfg.symbol ++ toString x

/-- `formatCurrency(amount, currencyCode)` (currency.ts 23–40). -/
def formatCurrency (amount : JsNum) (currencyCode : String) : String :=
  intlFormat (resolveConfig currencyCode) (sanitizeAmount amount)

/-- C10: `formatCurrency` is total by construction; a NaN or infinite
amount is formatted as 0, and an unknown currency code is formatted
exactly as USD. -/
theorem C10_format_currency_total (a : JsNum) (c : String) :
    (lookupCurrency c = none → formatCurrency a c = formatCurrency a "USD") ∧
    formatCurrency .nan c = formatCurrency (.finite 0) c ∧
    formatCurrency .posInf c = formatCurrency (.finite 0) c ∧
    formatCurrency .negInf c = formatCurrency (.finite 0) c := by
  refine ⟨?_, rfl, rfl, rfl⟩
  intro h
  unfold formatCurrency resolveConfig
  rw [h]
  rfl

/-- C10 witness: `XYZ` is not a configured currency and formats as
USD; the lookup-failure hypothesis is discharged by evaluation. -/
theorem C10_format_currency_total_witness :
    lookupCurrency "XYZ" = none ∧
    formatCurrency (.finite 3) "XYZ" = formatCurrency (.finite 3) "USD" :=
  ⟨by decide, (C10_format_currency_total (.finite 3) "XYZ").1 (by decide)⟩

end YGCF
